import Mathlib

/-!
Verification development for the editorconfig generator
(src/generate_editorconfig.py).

The program's core is embedded shallowly:

* raw file bytes are `List Nat` (each entry one byte);
* decoded text is `List Char` (Python `str` is a sequence of code points);
* `collections.Counter` as used by the program is an insertion-ordered
  association list from keys to counts (`Counter`), and
  `Counter.most_common(1)[0][0]` is `Counter.mostCommon?` (Python's
  `max`-style scan keeps the first key among those with the maximal count,
  which is exactly what `heapq.nlargest(1, ...)` returns);
* the analyzer `analyze_file` takes the outcome of the file read
  (`Except String (List Nat)`): the program wraps the whole analysis in
  `try/except` and returns the record as populated so far when the read
  fails, i.e. the all-`none` record;
* the rendered document is the `List Char` of the generated file content.
-/

set_option maxHeartbeats 1000000
set_option maxRecDepth 4096

/-- Indentation style values: the Python strings `'space'` and `'tab'`. -/
inductive IndentStyle : Type
  | space
  | tab
deriving DecidableEq

/-- Line-ending values: the Python strings `'crlf'`, `'cr'`, `'lf'`. -/
inductive Eol : Type
  | crlf
  | cr
  | lf
deriving DecidableEq

/-- Charset values: the Python strings `'utf-8'`, `'utf-16'`, `'latin-1'`. -/
inductive Charset : Type
  | utf8
  | utf16
  | latin1
deriving DecidableEq

/-- The `properties` dict built by `analyze_file` (all fields start as `None`). -/
structure FileProperties : Type where
  indent_style : Option IndentStyle
  indent_size : Option Nat
  eol : Option Eol
  charset : Option Charset
deriving DecidableEq

/-- Model of `collections.Counter` as used by the program: entries in
first-insertion order, each key paired with its count. -/
structure Counter (α : Type) : Type where
  entries : List (α × Nat)
deriving DecidableEq

/-- `counter.update([k])`: increment the count of `k`, appending a fresh
entry with count 1 when `k` is not yet a key (dicts keep insertion order). -/
def updateEntries {α : Type} [DecidableEq α] (k : α) : List (α × Nat) → List (α × Nat)
  | [] => [(k, 1)]
  | (k', n) :: rest => if k' = k then (k', n + 1) :: rest else (k', n) :: updateEntries k rest

def Counter.update {α : Type} [DecidableEq α] (c : Counter α) (k : α) : Counter α :=
  ⟨updateEntries k c.entries⟩

/-- `counter.most_common(1)[0][0]` guarded by counter truthiness: `none` when
the underlying dict is empty, otherwise the first key whose count is maximal
(`heapq.nlargest(1, items, key=itemgetter(1))` = `max(items, key=...)`,
which scans left to right and replaces the current best only on a strictly
larger count). -/
def Counter.mostCommon? {α : Type} (c : Counter α) : Option α :=
  match c.entries with
  | [] => none
  | e :: es => some ((List.foldl (fun best p => if best.2 < p.2 then p else best) e es).1)

/-- A `Counter` built by feeding the elements of a list one by one to
`update`, starting from the empty counter. -/
def counterOfList {α : Type} [DecidableEq α] (l : List α) : Counter α :=
  List.foldl Counter.update ⟨[]⟩ l

/-- Occurrence count of `a` in `l` (Python `list.count` / `str.count` for a
single character). -/
def tally {α : Type} [DecidableEq α] (a : α) (l : List α) : Nat :=
  (l.filter (fun x => decide (x = a))).length

/-- Bytes `0x80..0xBF` are UTF-8 continuation bytes. -/
def isCont (b : Nat) : Bool :=
  decide (0x80 ≤ b ∧ b < 0xC0)

/-- Strict UTF-8 decoding of a byte list (`raw.decode('utf-8')`): rejects
truncated sequences, stray continuation bytes, overlong encodings,
surrogate code points and code points above U+10FFFF. -/
def utf8Decode : List Nat → Option (List Char)
  | [] => some []
  | b :: rest =>
    if b < 0x80 then
      (utf8Decode rest).map (fun t => Char.ofNat b :: t)
    else if 0xC2 ≤ b ∧ b ≤ 0xDF then
      match rest with
      | b1 :: rest2 =>
        if isCont b1 then
          (utf8Decode rest2).map (fun t => Char.ofNat ((b - 0xC0) * 64 + (b1 - 0x80)) :: t)
        else none
      | [] => none
    else if 0xE0 ≤ b ∧ b ≤ 0xEF then
      match rest with
      | b1 :: b2 :: rest3 =>
        if isCont b1 && isCont b2 then
          let cp := (b - 0xE0) * 4096 + (b1 - 0x80) * 64 + (b2 - 0x80)
          if 0x800 ≤ cp ∧ (cp < 0xD800 ∨ 0xE000 ≤ cp) then
            (utf8Decode rest3).map (fun t => Char.ofNat cp :: t)
          else none
        else none
      | _ => none
    else if 0xF0 ≤ b ∧ b ≤ 0xF4 then
      match rest with
      | b1 :: b2 :: b3 :: rest4 =>
        if isCont b1 && isCont b2 && isCont b3 then
          let cp := (b - 0xF0) * 262144 + (b1 - 0x80) * 4096 + (b2 - 0x80) * 64 + (b3 - 0x80)
          if 0x10000 ≤ cp ∧ cp < 0x110000 then
            (utf8Decode rest4).map (fun t => Char.ofNat cp :: t)
          else none
        else none
      | _ => none
    else none

/-- Group a byte list into 16-bit units (little endian when `le`); fails on
odd length (Python raises "truncated data"). -/
def utf16Units (le : Bool) : List Nat → Option (List Nat)
  | [] => some []
  | [_] => none
  | b0 :: b1 :: rest =>
    (utf16Units le rest).map (fun us => (if le then b1 * 256 + b0 else b0 * 256 + b1) :: us)

/-- Combine UTF-16 surrogate pairs into code points; lone surrogates fail. -/
def combineSurrogates : List Nat → Option (List Nat)
  | [] => some []
  | u :: rest =>
    if 0xD800 ≤ u ∧ u < 0xDC00 then
      match rest with
      | u2 :: rest2 =>
        if 0xDC00 ≤ u2 ∧ u2 < 0xE000 then
          (combineSurrogates rest2).map (fun cs => (0x10000 + (u - 0xD800) * 1024 + (u2 - 0xDC00)) :: cs)
        else none
      | [] => none
    else if 0xDC00 ≤ u ∧ u < 0xE000 then none
    else (combineSurrogates rest).map (fun cs => u :: cs)

/-- `raw.decode('utf-16')`: honour a BOM when present, otherwise assume the
platform (little-endian) byte order, as CPython does on x86. -/
def utf16Decode (raw : List Nat) : Option (List Char) :=
  let decodeBody := fun (le : Bool) (bytes : List Nat) =>
    match utf16Units le bytes with
    | none => none
    | some us => (combineSurrogates us).map (fun cs => cs.map Char.ofNat)
  match raw with
  | 0xFF :: 0xFE :: rest => decodeBody true rest
  | 0xFE :: 0xFF :: rest => decodeBody false rest
  | _ => decodeBody true raw

/-- `raw.decode('latin-1', errors='replace')`: every byte maps to the code
point of the same value, so this decode is total and never substitutes. -/
def latin1Decode (raw : List Nat) : List Char :=
  raw.map Char.ofNat

/-- The charset-detection chain of `analyze_file` (lines 52-61): strict
UTF-8, then strict UTF-16, then the terminal Latin-1 fallback. -/
def detectCharset (raw : List Nat) : List Char × Charset :=
  match utf8Decode raw with
  | some t => (t, Charset.utf8)
  | none =>
    match utf16Decode raw with
    | some t => (t, Charset.utf16)
    | none => (latin1Decode raw, Charset.latin1)

/-- Count of non-overlapping `"\r\n"` occurrences (`text.count('\r\n')`).
Occurrences of this two-character pattern can never overlap. -/
def countCRLF : List Char → Nat
  | '\r' :: '\n' :: rest => countCRLF rest + 1
  | _ :: rest => countCRLF rest
  | [] => 0

/-- Line 64: `crlf_count = text.count('\r\n')`. -/
def crlfCount (text : List Char) : Nat :=
  countCRLF text

/-- Line 65: `cr_count = text.count('\r') - crlf_count`. -/
def bareCrCount (text : List Char) : Nat :=
  tally '\r' text - countCRLF text

/-- Line 66: `lf_count = text.count('\n') - crlf_count`. -/
def bareLfCount (text : List Char) : Nat :=
  tally '\n' text - countCRLF text

/-- The `Counter({'crlf': ..., 'cr': ..., 'lf': ...})` literal of lines
68-72: CRLF sequences, then bare CRs, then bare LFs, in that key order. -/
def eolCounter (text : List Char) : Counter Eol :=
  ⟨[(Eol.crlf, crlfCount text),
    (Eol.cr, bareCrCount text),
    (Eol.lf, bareLfCount text)]⟩

/-- Line 75: `eol_counter.most_common(1)[0][0] if eol_counter else 'lf'`.
The counter is falsy exactly when its dict is empty. -/
def dominantEol (text : List Char) : Eol :=
  match (eolCounter text).mostCommon? with
  | some e => e
  | none => Eol.lf

/-- The characters stripped by `line.lstrip('\t ')`. -/
def isIndentChar (c : Char) : Bool :=
  decide (c = '\t' ∨ c = ' ')

/-- The line terminators recognised by Python `str.splitlines`. -/
def isLineBreak (c : Char) : Bool :=
  decide (c.toNat = 10 ∨ c.toNat = 13 ∨ c.toNat = 11 ∨ c.toNat = 12 ∨ c.toNat = 28 ∨
    c.toNat = 29 ∨ c.toNat = 30 ∨ c.toNat = 0x85 ∨ c.toNat = 0x2028 ∨ c.toNat = 0x2029)

def splitlinesAux : List Char → List Char → List (List Char)
  | cur, [] => if cur.isEmpty then [] else [cur.reverse]
  | cur, '\r' :: '\n' :: rest => cur.reverse :: splitlinesAux [] rest
  | cur, c :: rest =>
    if isLineBreak c then cur.reverse :: splitlinesAux [] rest
    else splitlinesAux (c :: cur) rest

/-- Python `text.splitlines()` (without keepends): `"\r\n"` is one
terminator, a trailing terminator does not produce a final empty line. -/
def splitlines (text : List Char) : List (List Char) :=
  splitlinesAux [] text

/-- The vote a single line casts in the loop of lines 86-96: `none` for a
blank line (only tabs/spaces) or a line with no leading whitespace,
otherwise the style given by `indent.startswith('\t')` /
`indent.startswith(' ')` on its leading tab/space run. -/
def voteOf (line : List Char) : Option IndentStyle :=
  if (line.dropWhile isIndentChar).isEmpty then none
  else if (line.takeWhile isIndentChar).head? = some '\t' then some IndentStyle.tab
  else if (line.takeWhile isIndentChar).head? = some ' ' then some IndentStyle.space
  else none

/-- The width recorded for a space-voting line: the length of its full
leading tab/space run (`len(indent)`). -/
def widthOf (line : List Char) : Option Nat :=
  match voteOf line with
  | some IndentStyle.space => some (line.takeWhile isIndentChar).length
  | _ => none

/-- The indentation loop of lines 84-96: fold the lines, updating the
style counter and appending recorded widths.  The branch structure of the
loop body (blank-line skip, tab test, space test) is `voteOf`. -/
def indentScan (lines : List (List Char)) : Counter IndentStyle × List Nat :=
  lines.foldl
    (fun acc line =>
      match voteOf line with
      | some IndentStyle.tab => (acc.1.update IndentStyle.tab, acc.2)
      | some IndentStyle.space =>
        (acc.1.update IndentStyle.space, acc.2 ++ [(line.takeWhile isIndentChar).length])
      | none => acc)
    (⟨[]⟩, [])

/-- Line 108: `math.gcd(*indent_sizes) if len(indent_sizes) > 1 else
indent_sizes[0]`. Folding `Nat.gcd` from 0 equals both branches
(`gcd 0 a = a`), and the call site guarantees a non-empty list. -/
def gcdList (sizes : List Nat) : Nat :=
  sizes.foldl Nat.gcd 0

/-- `analyze_file` on successfully read bytes (lines 52-119): decode,
classify line endings, classify indentation. -/
def analyzeContent (raw : List Nat) : FileProperties :=
  let tc := detectCharset raw
  let scan := indentScan (splitlines tc.1)
  let style := scan.1.mostCommon?
  ⟨style,
   match style with
   | some IndentStyle.space => if scan.2.isEmpty then none else some (gcdList scan.2)
   | _ => none,
   some (dominantEol tc.1),
   some tc.2⟩

/-- `analyze_file` at its boundary: the whole body runs inside
`try/except`, so a failed read returns the `properties` dict exactly as
initialised — all fields `None` — instead of raising. -/
def analyze_file (input : Except String (List Nat)) : FileProperties :=
  match input with
  | Except.error _ => ⟨none, none, none, none⟩
  | Except.ok raw => analyzeContent raw

/-- The filter of line 264: `if props['indent_style'] and props['eol']`
(non-empty strings are truthy, `None` is falsy). -/
def keepRecord (p : FileProperties) : Bool :=
  p.indent_style.isSome && p.eol.isSome

/-- The per-extension collection of four Counters created by
`aggregate_properties` (lines 127-132). -/
structure ExtCounters : Type where
  indent_style : Counter IndentStyle
  indent_size : Counter Nat
  eol : Counter Eol
  charset : Counter Charset
deriving DecidableEq

def emptyCounters : ExtCounters :=
  ⟨⟨[]⟩, ⟨[]⟩, ⟨[]⟩, ⟨[]⟩⟩

/-- One iteration of the loop of lines 135-140: each truthy field value
votes into the matching counter.  Truthiness: `None` is falsy, non-empty
strings are truthy, and the integer 0 would be falsy (the analyzer never
records a 0 width, but the aggregator is modelled as written). -/
def addProps (c : ExtCounters) (p : FileProperties) : ExtCounters :=
  ⟨(match p.indent_style with
    | some v => c.indent_style.update v
    | none => c.indent_style),
   (match p.indent_size with
    | some (n + 1) => c.indent_size.update (n + 1)
    | _ => c.indent_size),
   (match p.eol with
    | some v => c.eol.update v
    | none => c.eol),
   (match p.charset with
    | some v => c.charset.update v
    | none => c.charset)⟩

/-- `aggregate_properties` for one extension bucket: fold the records in
scan order. -/
def aggregate_properties (l : List FileProperties) : ExtCounters :=
  l.foldl addProps emptyCounters

/-- Lines 144-149: most common value of a counter, or the default when the
counter is falsy (empty). -/
def determine_setting {α : Type} (c : Counter α) (dflt : α) : α :=
  match c.mostCommon? with
  | some v => v
  | none => dflt

def styleText : IndentStyle → List Char
  | IndentStyle.space => "space".toList
  | IndentStyle.tab => "tab".toList

def eolText : Eol → List Char
  | Eol.crlf => "crlf".toList
  | Eol.cr => "cr".toList
  | Eol.lf => "lf".toList

def charsetText : Charset → List Char
  | Charset.utf8 => "utf-8".toList
  | Charset.utf16 => "utf-16".toList
  | Charset.latin1 => "latin-1".toList

/-- Decimal rendering of a Python int inside an f-string. -/
def natText (n : Nat) : List Char :=
  Nat.toDigits 10 n

/-- The fixed universal section emitted first by `generate_editorconfig`
(lines 153-162), ending with the blank separator line. -/
def headerLines : List (List Char) :=
  [ "root = true".toList,
    [],
    "[*]".toList,
    "charset = utf-8".toList,
    "end_of_line = lf".toList,
    "insert_final_newline = true".toList,
    "trim_trailing_whitespace = true".toList,
    [] ]

/-- The per-extension body of the loop of lines 164-189: append the
section header, indent_style, indent_size (numeric for space, the literal
token for tab), end_of_line, charset, and a blank separator line. -/
def sectionAppend (lines : List (List Char)) (ext : List Char) (props : ExtCounters) : List (List Char) :=
  let lines1 := lines ++ [ "[*".toList ++ ext ++ "]".toList ]
  let style := determine_setting props.indent_style IndentStyle.space
  let lines2 := lines1 ++ [ "indent_style = ".toList ++ styleText style ]
  let lines3 :=
    match style with
    | IndentStyle.space =>
      lines2 ++ [ "indent_size = ".toList ++ natText (determine_setting props.indent_size 4) ]
    | IndentStyle.tab => lines2 ++ [ "indent_size = tab".toList ]
  let lines4 := lines3 ++ [ "end_of_line = ".toList ++ eolText (determine_setting props.eol Eol.lf) ]
  let lines5 := lines4 ++ [ "charset = ".toList ++ charsetText (determine_setting props.charset Charset.utf8) ]
  lines5 ++ [[]]

/-- Python string comparison (code-point lexicographic), as `a ≤ b`. -/
def strLeb : List Char → List Char → Bool
  | [], _ => true
  | _ :: _, [] => false
  | a :: as, b :: bs =>
    if a.toNat < b.toNat then true
    else if b.toNat < a.toNat then false
    else strLeb as bs

def insertPair (x : List Char × ExtCounters) :
    List (List Char × ExtCounters) → List (List Char × ExtCounters)
  | [] => [x]
  | y :: ys => if strLeb x.1 y.1 then x :: y :: ys else y :: insertPair x ys

/-- `sorted(aggregated.items())`: the extension keys of the aggregation
dict are distinct, so any sort that orders the pairs by Python string
comparison of the keys agrees with the source. -/
def sortPairs (l : List (List Char × ExtCounters)) : List (List Char × ExtCounters) :=
  l.foldr insertPair []

/-- `generate_editorconfig` (lines 151-191): the fixed universal section,
then one section per extension in sorted order, skipping the empty
extension, joined with `'\n'`. -/
def generate_editorconfig (aggregated : List (List Char × ExtCounters)) : List Char :=
  let body := (sortPairs aggregated).foldl
    (fun lines ep => if ep.1.isEmpty then lines else sectionAppend lines ep.1 ep.2)
    headerLines
  List.intercalate ['\n'] body

/-- `file_properties[ext].append(props)` on a `defaultdict(list)`. -/
def bucketAdd : List (List Char × List FileProperties) → List Char → FileProperties →
    List (List Char × List FileProperties)
  | [], ext, p => [(ext, [p])]
  | (e, ps) :: rest, ext, p =>
    if e = ext then (e, ps ++ [p]) :: rest else (e, ps) :: bucketAdd rest ext p

/-- The scan loop of `main` (lines 255-268) on the already-filtered stream
of (extension, read outcome) pairs, in iteration order of
`files_to_scan`: analyze each file and keep the record only when both
indent_style and eol are truthy. -/
def collectProperties (files : List (List Char × Except String (List Nat))) :
    List (List Char × List FileProperties) :=
  files.foldl
    (fun acc f =>
      let props := analyze_file f.2
      if keepRecord props then bucketAdd acc f.1 props else acc)
    []

/-- End-to-end document production of `main` (lines 254-279): scan, filter,
bucket, aggregate, render. -/
def runPipeline (files : List (List Char × Except String (List Nat))) : List Char :=
  generate_editorconfig ((collectProperties files).map (fun ep => (ep.1, aggregate_properties ep.2)))

/-- UTF-8 bytes of an ASCII string, for concrete test inputs. -/
def bytesOf (s : String) : List Nat :=
  s.toList.map Char.toNat

/-- Distinct values of `l` in order of first occurrence: the key order of a
Python dict/Counter fed the elements of `l` one by one. -/
def firstOccurrences {α : Type} [DecidableEq α] : List α → List α
  | [] => []
  | x :: xs => x :: (firstOccurrences xs).filter (fun y => decide (y ≠ x))

/-- Left-to-right scan keeping the first element with the maximal value of
`c` (the behaviour of Python `max` with a key function). -/
def firstMax {α : Type} (c : α → Nat) (b : α) (ks : List α) : α :=
  ks.foldl (fun best k => if c best < c k then k else best) b

/-- The truthy indent_size value of a record, as the aggregation loop sees
it (`if value:` — `None` and 0 are falsy). -/
def sizeVote (p : FileProperties) : Option Nat :=
  match p.indent_size with
  | some (n + 1) => some (n + 1)
  | _ => none

/-- The style of the first line of the file that casts an indentation
vote. -/
def firstVote (lines : List (List Char)) : Option IndentStyle :=
  lines.findSome? voteOf

/-- Number of lines casting a tab vote (non-blank, leading run starts with
a tab). -/
def tabVoteCount (lines : List (List Char)) : Nat :=
  (lines.filter (fun l => decide (voteOf l = some IndentStyle.tab))).length

/-- Number of lines casting a space vote (non-blank, leading run starts
with a space). -/
def spaceVoteCount (lines : List (List Char)) : Nat :=
  (lines.filter (fun l => decide (voteOf l = some IndentStyle.space))).length

/-- The recorded indent widths, in line order: the length of the leading
run of every space-voting line. -/
def spaceWidths (lines : List (List Char)) : List Nat :=
  lines.filterMap widthOf

/-- The line list the indentation loop works on: `text.splitlines()` of the
decoded content. -/
def linesOf (raw : List Nat) : List (List Char) :=
  splitlines (detectCharset raw).1

/-- From the claim's words: `r` is a value observed among the votes whose
tally is maximal, and every value first encountered before it (stable
insertion order) has a strictly smaller tally. -/
def isModeChoice {α : Type} [DecidableEq α] (votes : List α) (r : α) : Prop :=
  r ∈ votes ∧ (∀ x ∈ votes, tally x votes ≤ tally r votes) ∧
  ∃ pre suf, firstOccurrences votes = pre ++ r :: suf ∧
    ∀ k ∈ pre, tally k votes < tally r votes

/-- From the claim's words: the lines of one rendered section — the
selector header built from the extension, indent_style, indent_size
(numeric when the style is space, the literal token tab when the style is
tab), end_of_line, charset, and one blank separator line. -/
def sectionLinesOf (ext : List Char) (props : ExtCounters) : List (List Char) :=
  [ "[*".toList ++ ext ++ "]".toList,
    "indent_style = ".toList ++ styleText (determine_setting props.indent_style IndentStyle.space) ] ++
  (if determine_setting props.indent_style IndentStyle.space = IndentStyle.space then
    [ "indent_size = ".toList ++ natText (determine_setting props.indent_size 4) ]
  else
    [ "indent_size = tab".toList ]) ++
  [ "end_of_line = ".toList ++ eolText (determine_setting props.eol Eol.lf),
    "charset = ".toList ++ charsetText (determine_setting props.charset Charset.utf8),
    [] ]

def extX : List Char := ".x".toList

def helloBytes : List Nat := bytesOf "hello\n"

def abcBytes : List Nat := bytesOf "abc"

def fileSpaceLf : List Nat := bytesOf " p\n"

def fileSpaceCrlf : List Nat := bytesOf " p\r\n"

def twoSpaceBytes : List Nat := bytesOf "  a\n"

def tieBytes : List Nat := bytesOf "\ta\n b\n"

def mixWidthBytes : List Nat := bytesOf "  a\n    b\n"

def textMixed : List Char := "a\r\nb\r\nc\n".toList

def textLfOnly : List Char := "x\ny\n".toList

def recLf : FileProperties := ⟨none, none, some Eol.lf, none⟩

def recCrlf : FileProperties := ⟨none, none, some Eol.crlf, none⟩

def readFailMsg : String := "simulated read failure"

/-- A two-file set: a space-indented LF file and a space-indented CRLF
file, both of extension .x, in one iteration order. -/
def filesAB : List (List Char × Except String (List Nat)) :=
  [(extX, Except.ok fileSpaceLf), (extX, Except.ok fileSpaceCrlf)]

/-- The same two-file set in the other iteration order. -/
def filesBA : List (List Char × Except String (List Nat)) :=
  [(extX, Except.ok fileSpaceCrlf), (extX, Except.ok fileSpaceLf)]

lemma tally_cons {α : Type} [DecidableEq α] (a b : α) (l : List α) :
    tally a (b :: l) = tally a l + if b = a then 1 else 0 := by
  by_cases h : b = a <;> simp [tally, List.filter_cons, h, Nat.add_comm]

lemma tally_append {α : Type} [DecidableEq α] (a : α) (l1 l2 : List α) :
    tally a (l1 ++ l2) = tally a l1 + tally a l2 := by
  simp [tally, List.filter_append]

lemma tally_singleton {α : Type} [DecidableEq α] (a x : α) :
    tally a [x] = if x = a then 1 else 0 := by
  by_cases h : x = a <;> simp [tally, List.filter_cons, h]

lemma tally_eq_zero_of_not_mem {α : Type} [DecidableEq α] {a : α} {l : List α}
    (h : a ∉ l) : tally a l = 0 := by
  induction l with
  | nil => rfl
  | cons b l ih =>
    rw [tally_cons, ih (fun hm => h (List.mem_cons_of_mem b hm))]
    simp only [List.mem_cons, not_or] at h
    have hba : ¬ b = a := fun he => h.1 he.symm
    simp [hba]

lemma mem_firstOccurrences {α : Type} [DecidableEq α] {a : α} :
    ∀ {l : List α}, a ∈ firstOccurrences l ↔ a ∈ l := by
  intro l
  induction l with
  | nil => simp [firstOccurrences]
  | cons x xs ih =>
    by_cases h : a = x <;>
      simp [firstOccurrences, List.mem_filter, ih, decide_eq_true_eq, h]

lemma nodup_firstOccurrences {α : Type} [DecidableEq α] :
    ∀ (l : List α), (firstOccurrences l).Nodup := by
  intro l
  induction l with
  | nil => simp [firstOccurrences]
  | cons x xs ih =>
    refine List.Nodup.cons ?_ (List.Nodup.filter _ ih)
    intro hmem
    rcases List.mem_filter.1 hmem with ⟨-, hne⟩
    simp at hne

lemma firstOccurrences_append_not_mem {α : Type} [DecidableEq α] {l : List α} {x : α}
    (hx : x ∉ l) : firstOccurrences (l ++ [x]) = firstOccurrences l ++ [x] := by
  induction l with
  | nil => simp [firstOccurrences]
  | cons a l ih =>
    simp only [List.mem_cons, not_or] at hx
    show a :: (firstOccurrences (l ++ [x])).filter (fun y => decide (y ≠ a)) =
      a :: ((firstOccurrences l).filter (fun y => decide (y ≠ a)) ++ [x])
    have hfx : (List.filter (fun y => decide (y ≠ a)) [x]) = [x] := by
      simp [List.filter_cons, hx.1]
    rw [ih hx.2, List.filter_append, hfx]

lemma firstOccurrences_append_mem {α : Type} [DecidableEq α] {l : List α} {x : α}
    (hx : x ∈ l) : firstOccurrences (l ++ [x]) = firstOccurrences l := by
  induction l with
  | nil => cases hx
  | cons a l ih =>
    by_cases hxl : x ∈ l
    · show a :: (firstOccurrences (l ++ [x])).filter (fun y => decide (y ≠ a)) =
        a :: (firstOccurrences l).filter (fun y => decide (y ≠ a))
      rw [ih hxl]
    · have hxa : x = a := by
        rcases List.mem_cons.1 hx with h | h
        · exact h
        · exact absurd h hxl
      subst hxa
      show x :: (firstOccurrences (l ++ [x])).filter (fun y => decide (y ≠ x)) =
        x :: (firstOccurrences l).filter (fun y => decide (y ≠ x))
      have hfx : (List.filter (fun y => decide (y ≠ x)) [x]) = [] := by
        simp [List.filter_cons]
      rw [firstOccurrences_append_not_mem hxl, List.filter_append, hfx, List.append_nil]

lemma counterOfList_append_singleton {α : Type} [DecidableEq α] (l : List α) (x : α) :
    counterOfList (l ++ [x]) = (counterOfList l).update x := by
  simp [counterOfList, List.foldl_append]

lemma updateEntries_of_not_mem {α : Type} [DecidableEq α] (f : α → Nat) (x : α) :
    ∀ {ks : List α}, x ∉ ks →
      updateEntries x (ks.map (fun k => (k, f k))) = ks.map (fun k => (k, f k)) ++ [(x, 1)] := by
  intro ks
  induction ks with
  | nil => intro _; rfl
  | cons k ks ih =>
    intro hx
    simp only [List.mem_cons, not_or] at hx
    have hk : k ≠ x := fun h => hx.1 h.symm
    simp [updateEntries, hk, ih hx.2]

lemma updateEntries_of_mem {α : Type} [DecidableEq α] (f : α → Nat) (x : α) :
    ∀ {ks : List α}, ks.Nodup → x ∈ ks →
      updateEntries x (ks.map (fun k => (k, f k))) =
        ks.map (fun k => (k, f k + if k = x then 1 else 0)) := by
  intro ks
  induction ks with
  | nil => intro _ hx; cases hx
  | cons k ks ih =>
    intro hnd hx
    rcases List.mem_cons.1 hx with hxk | hxk
    · subst hxk
      have hnot : x ∉ ks := (List.nodup_cons.1 hnd).1
      simp only [List.map_cons, updateEntries, if_pos rfl]
      have : ks.map (fun k => (k, f k + if k = x then 1 else 0)) = ks.map (fun k => (k, f k)) := by
        apply List.map_congr_left
        intro a ha
        have : a ≠ x := fun h => hnot (h ▸ ha)
        simp [this]
      simp [this]
    · have hk : k ≠ x := by
        intro h
        exact (List.nodup_cons.1 hnd).1 (h ▸ hxk)
      simp [updateEntries, hk, ih (List.nodup_cons.1 hnd).2 hxk]

lemma counterOfList_entries {α : Type} [DecidableEq α] (l : List α) :
    (counterOfList l).entries = (firstOccurrences l).map (fun k => (k, tally k l)) := by
  induction l using List.reverseRecOn with
  | nil => rfl
  | append_singleton l x ih =>
    rw [counterOfList_append_singleton]
    show updateEntries x (counterOfList l).entries = _
    rw [ih]
    by_cases hx : x ∈ l
    · rw [firstOccurrences_append_mem hx,
        updateEntries_of_mem (fun k => tally k l) x (nodup_firstOccurrences l)
          (mem_firstOccurrences.2 hx)]
      apply List.map_congr_left
      intro k _
      rw [tally_append, tally_singleton]
      by_cases hkx : k = x
      · simp [hkx]
      · have : x ≠ k := fun h => hkx h.symm
        simp [hkx, this]
    · rw [firstOccurrences_append_not_mem hx,
        updateEntries_of_not_mem (fun k => tally k l) x
          (fun hm => hx (mem_firstOccurrences.1 hm))]
      rw [List.map_append]
      congr 1
      · apply List.map_congr_left
        intro k hk
        have hkl : k ∈ l := mem_firstOccurrences.1 hk
        have : x ≠ k := fun h => hx (h ▸ hkl)
        rw [tally_append, tally_singleton]
        simp [this]
      · simp [tally_append, tally_singleton, tally_eq_zero_of_not_mem hx]

lemma firstMax_spec {α : Type} (c : α → Nat) :
    ∀ (ks : List α) (b : α),
      (firstMax c b ks = b ∧ ∀ k ∈ ks, c k ≤ c b) ∨
      (∃ pre suf, ks = pre ++ firstMax c b ks :: suf ∧ c b < c (firstMax c b ks) ∧
        (∀ k ∈ pre, c k < c (firstMax c b ks)) ∧ ∀ k ∈ ks, c k ≤ c (firstMax c b ks)) := by
  intro ks
  induction ks with
  | nil =>
    intro b
    left
    exact ⟨rfl, by simp⟩
  | cons k ks ih =>
    intro b
    have hstep : firstMax c b (k :: ks) = firstMax c (if c b < c k then k else b) ks := rfl
    by_cases h : c b < c k
    · rw [hstep, if_pos h]
      rcases ih k with ⟨heq, hall⟩ | ⟨pre, suf, hsplit, hlt, hpre, hall⟩
      · right
        refine ⟨[], ks, ?_, ?_, ?_, ?_⟩
        · simp [heq]
        · rw [heq]; exact h
        · simp
        · intro k' hk'
          rw [heq]
          rcases List.mem_cons.1 hk' with h' | h'
          · exact le_of_eq (congrArg c h')
          · exact hall k' h'
      · right
        refine ⟨k :: pre, suf, ?_, ?_, ?_, ?_⟩
        · rw [List.cons_append, ← hsplit]
        · exact lt_trans h hlt
        · intro k' hk'
          rcases List.mem_cons.1 hk' with h' | h'
          · rw [h']; exact hlt
          · exact hpre k' h'
        · intro k' hk'
          rcases List.mem_cons.1 hk' with h' | h'
          · rw [h']; exact le_of_lt hlt
          · exact hall k' h'
    · rw [hstep, if_neg h]
      have hkb : c k ≤ c b := le_of_not_lt h
      rcases ih b with ⟨heq, hall⟩ | ⟨pre, suf, hsplit, hlt, hpre, hall⟩
      · left
        refine ⟨heq, ?_⟩
        intro k' hk'
        rcases List.mem_cons.1 hk' with h' | h'
        · rw [h']; exact hkb
        · exact hall k' h'
      · right
        refine ⟨k :: pre, suf, ?_, hlt, ?_, ?_⟩
        · rw [List.cons_append, ← hsplit]
        · intro k' hk'
          rcases List.mem_cons.1 hk' with h' | h'
          · rw [h']; exact lt_of_le_of_lt hkb hlt
          · exact hpre k' h'
        · intro k' hk'
          rcases List.mem_cons.1 hk' with h' | h'
          · rw [h']; exact le_trans hkb (le_of_lt hlt)
          · exact hall k' h'

lemma foldl_best_map {α : Type} (c : α → Nat) :
    ∀ (ks : List α) (b : α),
      List.foldl (fun best p => if best.2 < p.2 then p else best) (b, c b)
          (ks.map (fun k => (k, c k))) =
        (firstMax c b ks, c (firstMax c b ks)) := by
  intro ks
  induction ks with
  | nil => intro b; rfl
  | cons k ks ih =>
    intro b
    by_cases h : c b < c k
    · have h1 : firstMax c b (k :: ks) = firstMax c k ks := by
        simp [firstMax, List.foldl_cons, h]
      have h2 : (if (b, c b).2 < (k, c k).2 then (k, c k) else (b, c b)) = (k, c k) := by
        simp [h]
      rw [List.map_cons, List.foldl_cons, h2, ih k, h1]
    · have h1 : firstMax c b (k :: ks) = firstMax c b ks := by
        simp [firstMax, List.foldl_cons, h]
      have h2 : (if (b, c b).2 < (k, c k).2 then (k, c k) else (b, c b)) = (b, c b) := by
        simp [h]
      rw [List.map_cons, List.foldl_cons, h2, ih b, h1]

/-- Specification of `most_common(1)` on a counter built from a vote list:
the result is a vote whose tally is maximal, and every distinct value first
encountered before it has a strictly smaller tally. -/
lemma mostCommon_spec {α : Type} [DecidableEq α] (l : List α) (hl : l ≠ []) :
    ∃ r, (counterOfList l).mostCommon? = some r ∧ r ∈ l ∧
      (∀ x ∈ l, tally x l ≤ tally r l) ∧
      ∃ pre suf, firstOccurrences l = pre ++ r :: suf ∧
        ∀ k ∈ pre, tally k l < tally r l := by
  obtain ⟨k0, l', rfl⟩ : ∃ k0 l', l = k0 :: l' := by
    cases l with
    | nil => exact absurd rfl hl
    | cons a as => exact ⟨a, as, rfl⟩
  set l := k0 :: l' with hldef
  have hfo : firstOccurrences l = k0 :: (firstOccurrences l').filter (fun y => decide (y ≠ k0)) := rfl
  set krest := (firstOccurrences l').filter (fun y => decide (y ≠ k0)) with hkrest
  set c := fun k => tally k l with hc
  have hent : (counterOfList l).entries = (k0, c k0) :: krest.map (fun k => (k, c k)) := by
    rw [counterOfList_entries, hfo]
    rfl
  have hmc : (counterOfList l).mostCommon? = some (firstMax c k0 krest) := by
    unfold Counter.mostCommon?
    rw [hent]
    simp only [foldl_best_map]
  set r := firstMax c k0 krest with hr
  have hmemFO : ∀ x, x ∈ firstOccurrences l → x ∈ l := fun x hx => mem_firstOccurrences.1 hx
  rcases firstMax_spec c krest k0 with ⟨heq, hall⟩ | ⟨pre, suf, hsplit, hlt, hpre, hall⟩
  · refine ⟨r, hmc, ?_, ?_, [], krest, ?_, ?_⟩
    · rw [hr, heq]; exact List.mem_cons_self k0 l'
    · intro x hx
      have hxfo : x ∈ firstOccurrences l := mem_firstOccurrences.2 hx
      rw [hfo] at hxfo
      rcases List.mem_cons.1 hxfo with h' | h'
      · rw [hr, heq, h']
      · rw [hr, heq]; exact hall x h'
    · rw [hfo, hr, heq]; rfl
    · intro k hk; cases hk
  · refine ⟨r, hmc, ?_, ?_, k0 :: pre, suf, ?_, ?_⟩
    · have : r ∈ krest := by
        rw [hsplit]
        exact List.mem_append.2 (Or.inr (List.mem_cons_self r suf))
      exact hmemFO r (by rw [hfo]; exact List.mem_cons_of_mem k0 this)
    · intro x hx
      have hxfo : x ∈ firstOccurrences l := mem_firstOccurrences.2 hx
      rw [hfo] at hxfo
      rcases List.mem_cons.1 hxfo with h' | h'
      · rw [h']; exact le_of_lt hlt
      · exact hall x h'
    · rw [hfo, hsplit, List.cons_append]
    · intro k hk
      rcases List.mem_cons.1 hk with h' | h'
      · rw [h']; exact hlt
      · exact hpre k h'

/-- The mode selection actually used per field by the renderer, on a
counter built from the non-null votes: the chosen value is a vote with a
maximal tally, and ties go to the value first encountered in scan order. -/
lemma determine_setting_spec {α : Type} [DecidableEq α] (votes : List α) (d : α)
    (hv : votes ≠ []) :
    determine_setting (counterOfList votes) d ∈ votes ∧
    (∀ x ∈ votes, tally x votes ≤ tally (determine_setting (counterOfList votes) d) votes) ∧
    ∃ pre suf, firstOccurrences votes = pre ++ determine_setting (counterOfList votes) d :: suf ∧
      ∀ k ∈ pre, tally k votes < tally (determine_setting (counterOfList votes) d) votes := by
  obtain ⟨r, hmc, hmem, hmax, pre, suf, hsplit, hpre⟩ := mostCommon_spec votes hv
  have hds : determine_setting (counterOfList votes) d = r := by
    unfold determine_setting
    rw [hmc]
  rw [hds]
  exact ⟨hmem, hmax, pre, suf, hsplit, hpre⟩

lemma determine_setting_nil {α : Type} [DecidableEq α] (d : α) :
    determine_setting (counterOfList ([] : List α)) d = d := rfl

lemma mem_of_tally_pos {α : Type} [DecidableEq α] {a : α} :
    ∀ {l : List α}, 0 < tally a l → a ∈ l := by
  intro l
  induction l with
  | nil => intro h; cases h
  | cons b l ih =>
    intro h
    by_cases hb : b = a
    · exact hb ▸ List.mem_cons_self b l
    · rw [tally_cons, if_neg hb] at h
      exact List.mem_cons_of_mem b (ih (by omega))

lemma tally_filterMap {α β : Type} [DecidableEq β] (f : α → Option β) (b : β) :
    ∀ l : List α, tally b (l.filterMap f) = (l.filter (fun a => decide (f a = some b))).length := by
  intro l
  induction l with
  | nil => rfl
  | cons a l ih =>
    rcases hfa : f a with _ | c
    · simp [List.filterMap_cons, hfa, List.filter_cons, ih]
    · by_cases hc : c = b
      · subst hc
        simp [List.filterMap_cons, hfa, List.filter_cons, tally_cons, ih, Nat.add_comm]
      · have : ¬ f a = some b := by rw [hfa]; simp [hc]
        simp [List.filterMap_cons, hfa, List.filter_cons, tally_cons, hc, this, ih]

lemma head?_filterMap {α β : Type} (f : α → Option β) :
    ∀ l : List α, (l.filterMap f).head? = l.findSome? f := by
  intro l
  induction l with
  | nil => rfl
  | cons a l ih =>
    rcases hfa : f a with _ | b <;> simp [List.filterMap_cons, List.findSome?_cons, hfa, ih]

/-- The `most_common(1)` scan of lines 74-75 written as the nested
comparisons it performs: crlf unless beaten, then cr unless beaten, then
lf; a tie never displaces the current best. -/
lemma dominantEol_eq (text : List Char) :
    dominantEol text =
      if bareCrCount text ≤ crlfCount text ∧ bareLfCount text ≤ crlfCount text then Eol.crlf
      else if bareLfCount text ≤ bareCrCount text then Eol.cr
      else Eol.lf := by
  set c := crlfCount text with hcdef
  set r := bareCrCount text with hrdef
  set l := bareLfCount text with hldef
  show (List.foldl (fun best p => if best.2 < p.2 then p else best) (Eol.crlf, c)
      [(Eol.cr, r), (Eol.lf, l)]).1 = _
  simp only [List.foldl_cons, List.foldl_nil]
  by_cases h1 : c < r
  · by_cases h2 : r < l
    · have hA : ¬ (r ≤ c ∧ l ≤ c) := fun h => absurd h.1 (by omega)
      have hB : ¬ l ≤ r := by omega
      simp [h1, h2, hA, hB]
    · have hA : ¬ (r ≤ c ∧ l ≤ c) := fun h => absurd h.1 (by omega)
      have hB : l ≤ r := by omega
      simp [h1, h2, hA, hB]
  · by_cases h2 : c < l
    · have hA : ¬ (r ≤ c ∧ l ≤ c) := fun h => absurd h.2 (by omega)
      have hB : ¬ l ≤ r := by omega
      simp [h1, h2, hA, hB]
    · have hA : r ≤ c ∧ l ≤ c := by omega
      simp [h1, h2, hA]

lemma foldl_gcd_dvd_init : ∀ (l : List Nat) (a : Nat), (l.foldl Nat.gcd a) ∣ a := by
  intro l
  induction l with
  | nil => intro a; exact dvd_refl a
  | cons b l ih =>
    intro a
    exact dvd_trans (ih (Nat.gcd a b)) (Nat.gcd_dvd_left a b)

lemma foldl_gcd_dvd_mem : ∀ (l : List Nat) (a : Nat), ∀ w ∈ l, (l.foldl Nat.gcd a) ∣ w := by
  intro l
  induction l with
  | nil => intro a w hw; cases hw
  | cons b l ih =>
    intro a w hw
    rcases List.mem_cons.1 hw with h | h
    · subst h
      exact dvd_trans (foldl_gcd_dvd_init l (Nat.gcd a w)) (Nat.gcd_dvd_right a w)
    · exact ih (Nat.gcd a b) w h

lemma dvd_foldl_gcd : ∀ (l : List Nat) (a d : Nat), d ∣ a → (∀ w ∈ l, d ∣ w) →
    d ∣ l.foldl Nat.gcd a := by
  intro l
  induction l with
  | nil => intro a d ha _; exact ha
  | cons b l ih =>
    intro a d ha hl
    exact ih (Nat.gcd a b) d (Nat.dvd_gcd ha (hl b (List.mem_cons_self b l)))
      (fun w hw => hl w (List.mem_cons_of_mem b hw))

lemma foldl_gcd_pos : ∀ (l : List Nat) (a : Nat), 0 < a → 0 < l.foldl Nat.gcd a := by
  intro l
  induction l with
  | nil => intro a ha; exact ha
  | cons b l ih =>
    intro a ha
    exact ih (Nat.gcd a b) (Nat.gcd_pos_of_pos_left b ha)

lemma gcdList_dvd_mem (l : List Nat) : ∀ w ∈ l, gcdList l ∣ w :=
  foldl_gcd_dvd_mem l 0

lemma dvd_gcdList (l : List Nat) (d : Nat) (h : ∀ w ∈ l, d ∣ w) : d ∣ gcdList l :=
  dvd_foldl_gcd l 0 d (dvd_zero d) h

lemma gcdList_pos (l : List Nat) (hne : l ≠ []) (hpos : ∀ w ∈ l, 0 < w) : 0 < gcdList l := by
  cases l with
  | nil => exact absurd rfl hne
  | cons w rest =>
    show 0 < List.foldl Nat.gcd 0 (w :: rest)
    rw [List.foldl_cons, Nat.gcd_zero_left]
    exact foldl_gcd_pos rest w (hpos w (List.mem_cons_self w rest))

lemma indentScan_fold :
    ∀ (lines : List (List Char)) (c : Counter IndentStyle) (s : List Nat),
      List.foldl
        (fun acc line =>
          match voteOf line with
          | some IndentStyle.tab => (acc.1.update IndentStyle.tab, acc.2)
          | some IndentStyle.space =>
            (acc.1.update IndentStyle.space, acc.2 ++ [(line.takeWhile isIndentChar).length])
          | none => acc)
        (c, s) lines =
      (List.foldl Counter.update c (lines.filterMap voteOf), s ++ lines.filterMap widthOf) := by
  intro lines
  induction lines with
  | nil => intro c s; simp
  | cons line lines ih =>
    intro c s
    rcases hv : voteOf line with _ | sty
    · simp [List.foldl_cons, hv, List.filterMap_cons, ih, widthOf]
    · cases sty
      · simp [List.foldl_cons, hv, List.filterMap_cons, ih, widthOf]
      · simp [List.foldl_cons, hv, List.filterMap_cons, ih, widthOf]

lemma indentScan_eq (lines : List (List Char)) :
    indentScan lines = (counterOfList (lines.filterMap voteOf), spaceWidths lines) := by
  unfold indentScan counterOfList spaceWidths
  rw [indentScan_fold]
  simp

lemma analyzeContent_indent_style (raw : List Nat) :
    (analyzeContent raw).indent_style =
      (counterOfList ((linesOf raw).filterMap voteOf)).mostCommon? := by
  simp [analyzeContent, indentScan_eq, linesOf]

lemma analyzeContent_indent_size (raw : List Nat) :
    (analyzeContent raw).indent_size =
      match (counterOfList ((linesOf raw).filterMap voteOf)).mostCommon? with
      | some IndentStyle.space =>
        if (spaceWidths (linesOf raw)).isEmpty then none
        else some (gcdList (spaceWidths (linesOf raw)))
      | _ => none := by
  simp [analyzeContent, indentScan_eq, linesOf]

lemma analyzeContent_eol (raw : List Nat) :
    (analyzeContent raw).eol = some (dominantEol (detectCharset raw).1) := by
  simp [analyzeContent]

lemma analyzeContent_charset (raw : List Nat) :
    (analyzeContent raw).charset = some (detectCharset raw).2 := by
  simp [analyzeContent]

lemma foldl_addProps_indent_style :
    ∀ (l : List FileProperties) (c : ExtCounters),
      (l.foldl addProps c).indent_style =
        List.foldl Counter.update c.indent_style (l.filterMap (fun p => p.indent_style)) := by
  intro l
  induction l with
  | nil => intro c; rfl
  | cons p l ih =>
    intro c
    rcases hp : p.indent_style with _ | v <;>
      simp [List.foldl_cons, List.filterMap_cons, hp, addProps, ih]

lemma foldl_addProps_eol :
    ∀ (l : List FileProperties) (c : ExtCounters),
      (l.foldl addProps c).eol =
        List.foldl Counter.update c.eol (l.filterMap (fun p => p.eol)) := by
  intro l
  induction l with
  | nil => intro c; rfl
  | cons p l ih =>
    intro c
    rcases hp : p.eol with _ | v <;>
      simp [List.foldl_cons, List.filterMap_cons, hp, addProps, ih]

lemma foldl_addProps_charset :
    ∀ (l : List FileProperties) (c : ExtCounters),
      (l.foldl addProps c).charset =
        List.foldl Counter.update c.charset (l.filterMap (fun p => p.charset)) := by
  intro l
  induction l with
  | nil => intro c; rfl
  | cons p l ih =>
    intro c
    rcases hp : p.charset with _ | v <;>
      simp [List.foldl_cons, List.filterMap_cons, hp, addProps, ih]

lemma foldl_addProps_indent_size :
    ∀ (l : List FileProperties) (c : ExtCounters),
      (l.foldl addProps c).indent_size =
        List.foldl Counter.update c.indent_size (l.filterMap sizeVote) := by
  intro l
  induction l with
  | nil => intro c; rfl
  | cons p l ih =>
    intro c
    rcases hp : p.indent_size with _ | n
    · simp [List.foldl_cons, List.filterMap_cons, hp, addProps, sizeVote, ih]
    · cases n with
      | zero => simp [List.foldl_cons, List.filterMap_cons, hp, addProps, sizeVote, ih]
      | succ m => simp [List.foldl_cons, List.filterMap_cons, hp, addProps, sizeVote, ih]

lemma aggregate_indent_style (l : List FileProperties) :
    (aggregate_properties l).indent_style = counterOfList (l.filterMap (fun p => p.indent_style)) :=
  foldl_addProps_indent_style l emptyCounters

lemma aggregate_eol (l : List FileProperties) :
    (aggregate_properties l).eol = counterOfList (l.filterMap (fun p => p.eol)) :=
  foldl_addProps_eol l emptyCounters

lemma aggregate_charset (l : List FileProperties) :
    (aggregate_properties l).charset = counterOfList (l.filterMap (fun p => p.charset)) :=
  foldl_addProps_charset l emptyCounters

lemma aggregate_indent_size (l : List FileProperties) :
    (aggregate_properties l).indent_size = counterOfList (l.filterMap sizeVote) :=
  foldl_addProps_indent_size l emptyCounters

lemma insertPair_perm (x : List Char × ExtCounters) :
    ∀ l, (insertPair x l).Perm (x :: l) := by
  intro l
  induction l with
  | nil => exact List.Perm.refl _
  | cons y ys ih =>
    by_cases h : strLeb x.1 y.1
    · simp [insertPair, h]
    · simp only [insertPair, h, Bool.false_eq_true, if_false]
      exact List.Perm.trans (List.Perm.cons y ih) (List.Perm.swap x y ys)

lemma sortPairs_perm : ∀ l, (sortPairs l).Perm l := by
  intro l
  induction l with
  | nil => exact List.Perm.refl _
  | cons x l ih =>
    show (insertPair x (sortPairs l)).Perm (x :: l)
    exact List.Perm.trans (insertPair_perm x (sortPairs l)) (List.Perm.cons x ih)

lemma strLeb_total : ∀ a b : List Char, strLeb a b = true ∨ strLeb b a = true := by
  intro a
  induction a with
  | nil => intro b; left; rfl
  | cons x xs ih =>
    intro b
    cases b with
    | nil => right; rfl
    | cons y ys =>
      rcases Nat.lt_trichotomy x.toNat y.toNat with h | h | h
      · left; simp [strLeb, h]
      · have h1 : ¬ x.toNat < y.toNat := by omega
        have h2 : ¬ y.toNat < x.toNat := by omega
        rcases ih ys with hxy | hyx
        · left; simp [strLeb, h1, h2, hxy]
        · right; simp [strLeb, h1, h2, hyx]
      · right; simp [strLeb, h]

lemma strLeb_trans :
    ∀ a b c : List Char, strLeb a b = true → strLeb b c = true → strLeb a c = true := by
  intro a
  induction a with
  | nil => intro b c _ _; rfl
  | cons x xs ih =>
    intro b c h1 h2
    cases b with
    | nil => simp [strLeb] at h1
    | cons y ys =>
      cases c with
      | nil => simp [strLeb] at h2
      | cons z zs =>
        by_cases hxy : x.toNat < y.toNat
        · by_cases hyz : y.toNat < z.toNat
          · have hlt : x.toNat < z.toNat := by omega
            simp [strLeb, hlt]
          · by_cases hzy : z.toNat < y.toNat
            · simp [strLeb, hyz, hzy] at h2
            · have hlt : x.toNat < z.toNat := by omega
              simp [strLeb, hlt]
        · by_cases hyx : y.toNat < x.toNat
          · simp [strLeb, hxy, hyx] at h1
          · have hx : strLeb xs ys = true := by simpa [strLeb, hxy, hyx] using h1
            by_cases hyz : y.toNat < z.toNat
            · have hlt : x.toNat < z.toNat := by omega
              simp [strLeb, hlt]
            · by_cases hzy : z.toNat < y.toNat
              · simp [strLeb, hyz, hzy] at h2
              · have hy : strLeb ys zs = true := by simpa [strLeb, hyz, hzy] using h2
                have hxz : ¬ x.toNat < z.toNat := by omega
                have hzx : ¬ z.toNat < x.toNat := by omega
                simp [strLeb, hxz, hzx, ih ys zs hx hy]

/-- Key order of two adjacent rendered pairs: the left key is
less-or-equal in Python string comparison. -/
def pairLe (a b : List Char × ExtCounters) : Prop :=
  strLeb a.1 b.1 = true

lemma insertPair_sorted (x : List Char × ExtCounters) :
    ∀ l, List.Pairwise pairLe l → List.Pairwise pairLe (insertPair x l) := by
  intro l
  induction l with
  | nil => intro _; simp [insertPair]
  | cons y ys ih =>
    intro h
    rcases List.pairwise_cons.1 h with ⟨hy, hys⟩
    by_cases hxy : strLeb x.1 y.1
    · simp only [insertPair, hxy, if_true]
      refine List.pairwise_cons.2 ⟨?_, h⟩
      intro a ha
      rcases List.mem_cons.1 ha with h' | h'
      · rw [h']; exact hxy
      · exact strLeb_trans x.1 y.1 a.1 hxy (hy a h')
    · simp only [insertPair, hxy, Bool.false_eq_true, if_false]
      refine List.pairwise_cons.2 ⟨?_, ih hys⟩
      intro a ha
      have ha' : a = x ∨ a ∈ ys := by
        have := (insertPair_perm x ys).mem_iff.1 ha
        simpa using this
      rcases ha' with h' | h'
      · rw [h']
        rcases strLeb_total x.1 y.1 with ht | ht
        · exact absurd ht hxy
        · exact ht
      · exact hy a h'

lemma sortPairs_sorted : ∀ l, List.Pairwise pairLe (sortPairs l) := by
  intro l
  induction l with
  | nil => exact List.Pairwise.nil
  | cons x l ih => exact insertPair_sorted x (sortPairs l) ih

lemma tally_pos_of_mem {α : Type} [DecidableEq α] {a : α} :
    ∀ {l : List α}, a ∈ l → 0 < tally a l := by
  intro l
  induction l with
  | nil => intro h; cases h
  | cons b l ih =>
    intro h
    rcases List.mem_cons.1 h with h' | h'
    · rw [tally_cons, if_pos h'.symm]; omega
    · rw [tally_cons]
      have := ih h'
      omega

lemma tally_space_votes (lines : List (List Char)) :
    tally IndentStyle.space (lines.filterMap voteOf) = spaceVoteCount lines :=
  tally_filterMap voteOf IndentStyle.space lines

lemma tally_tab_votes (lines : List (List Char)) :
    tally IndentStyle.tab (lines.filterMap voteOf) = tabVoteCount lines :=
  tally_filterMap voteOf IndentStyle.tab lines

lemma spaceWidths_length (lines : List (List Char)) :
    (spaceWidths lines).length = spaceVoteCount lines := by
  unfold spaceWidths spaceVoteCount
  induction lines with
  | nil => rfl
  | cons line lines ih =>
    rcases hv : voteOf line with _ | sty
    · simp [List.filterMap_cons, List.filter_cons, widthOf, hv, ih]
    · cases sty
      · simp [List.filterMap_cons, List.filter_cons, widthOf, hv, ih]
      · simp [List.filterMap_cons, List.filter_cons, widthOf, hv, ih]

lemma voteOf_space_head {line : List Char} (h : voteOf line = some IndentStyle.space) :
    ∃ rest, line.takeWhile isIndentChar = ' ' :: rest := by
  unfold voteOf at h
  by_cases hb : (line.dropWhile isIndentChar).isEmpty
  · rw [if_pos hb] at h; cases h
  · rw [if_neg hb] at h
    by_cases ht : (line.takeWhile isIndentChar).head? = some '\t'
    · rw [if_pos ht] at h; cases h
    · rw [if_neg ht] at h
      by_cases hs : (line.takeWhile isIndentChar).head? = some ' '
      · rcases htw : line.takeWhile isIndentChar with _ | ⟨c0, rest⟩
        · rw [htw] at hs; cases hs
        · rw [htw, List.head?_cons] at hs
          exact ⟨rest, by rw [Option.some.inj hs]⟩
      · rw [if_neg hs] at h; cases h

lemma widthOf_space {line : List Char} {w : Nat} (h : widthOf line = some w) :
    voteOf line = some IndentStyle.space ∧ w = (line.takeWhile isIndentChar).length := by
  unfold widthOf at h
  rcases hv : voteOf line with _ | sty
  · rw [hv] at h; cases h
  · cases sty
    · rw [hv] at h
      cases h
      exact ⟨rfl, rfl⟩
    · rw [hv] at h; cases h

lemma widthOf_pos {line : List Char} {w : Nat} (h : widthOf line = some w) : 0 < w := by
  obtain ⟨hv, hw⟩ := widthOf_space h
  obtain ⟨rest, hr⟩ := voteOf_space_head hv
  rw [hw, hr]
  simp

lemma spaceWidths_pos (lines : List (List Char)) : ∀ w ∈ spaceWidths lines, 0 < w := by
  intro w hw
  obtain ⟨line, -, hline⟩ := List.mem_filterMap.1 hw
  exact widthOf_pos hline

/-- Strict space majority forces the analyzed indent_style to space. -/
lemma indentStyle_space_major (raw : List Nat)
    (h : tabVoteCount (linesOf raw) < spaceVoteCount (linesOf raw)) :
    (analyzeContent raw).indent_style = some IndentStyle.space := by
  set votes := (linesOf raw).filterMap voteOf with hvotes
  have hts : tally IndentStyle.space votes = spaceVoteCount (linesOf raw) := tally_space_votes _
  have htt : tally IndentStyle.tab votes = tabVoteCount (linesOf raw) := tally_tab_votes _
  have hmem : IndentStyle.space ∈ votes := mem_of_tally_pos (by omega)
  obtain ⟨r, hmc, hrmem, hmax, -⟩ := mostCommon_spec votes (List.ne_nil_of_mem hmem)
  have hr : r = IndentStyle.space := by
    cases r with
    | space => rfl
    | tab =>
      have := hmax IndentStyle.space hmem
      rw [hts, htt] at this
      omega
  rw [analyzeContent_indent_style, ← hvotes, hmc, hr]

/-- Strict tab majority forces the analyzed indent_style to tab. -/
lemma indentStyle_tab_major (raw : List Nat)
    (h : spaceVoteCount (linesOf raw) < tabVoteCount (linesOf raw)) :
    (analyzeContent raw).indent_style = some IndentStyle.tab := by
  set votes := (linesOf raw).filterMap voteOf with hvotes
  have hts : tally IndentStyle.space votes = spaceVoteCount (linesOf raw) := tally_space_votes _
  have htt : tally IndentStyle.tab votes = tabVoteCount (linesOf raw) := tally_tab_votes _
  have hmem : IndentStyle.tab ∈ votes := mem_of_tally_pos (by omega)
  obtain ⟨r, hmc, hrmem, hmax, -⟩ := mostCommon_spec votes (List.ne_nil_of_mem hmem)
  have hr : r = IndentStyle.tab := by
    cases r with
    | tab => rfl
    | space =>
      have := hmax IndentStyle.tab hmem
      rw [hts, htt] at this
      omega
  rw [analyzeContent_indent_style, ← hvotes, hmc, hr]

/-- With no votes at all the counter stays empty and the style is null. -/
lemma indentStyle_none (raw : List Nat)
    (ht : tabVoteCount (linesOf raw) = 0) (hs : spaceVoteCount (linesOf raw) = 0) :
    (linesOf raw).filterMap voteOf = [] := by
  rcases hv : (linesOf raw).filterMap voteOf with _ | ⟨v, vs⟩
  · rfl
  · exfalso
    have hmem : v ∈ (linesOf raw).filterMap voteOf := by rw [hv]; exact List.mem_cons_self v vs
    have := tally_pos_of_mem hmem
    cases v with
    | space => rw [tally_space_votes, hs] at this; omega
    | tab => rw [tally_tab_votes, ht] at this; omega

lemma sectionAppend_eq (lines : List (List Char)) (ext : List Char) (props : ExtCounters) :
    sectionAppend lines ext props = lines ++ sectionLinesOf ext props := by
  unfold sectionAppend sectionLinesOf
  cases hsty : determine_setting props.indent_style IndentStyle.space <;>
    simp [hsty, List.append_assoc]

lemma generate_fold :
    ∀ (l : List (List Char × ExtCounters)) (lines : List (List Char)),
      List.foldl (fun lines ep => if ep.1.isEmpty then lines else sectionAppend lines ep.1 ep.2)
        lines l =
      lines ++ (l.filter (fun ep => decide (ep.1 ≠ []))).flatMap
        (fun ep => sectionLinesOf ep.1 ep.2) := by
  intro l
  induction l with
  | nil => intro lines; simp
  | cons ep l ih =>
    intro lines
    simp only [List.foldl_cons]
    by_cases he : ep.1 = []
    · have h1 : (if ep.1.isEmpty then lines else sectionAppend lines ep.1 ep.2) = lines := by
        simp [he]
      have h2 : List.filter (fun ep => decide (ep.1 ≠ [])) (ep :: l) =
          List.filter (fun ep => decide (ep.1 ≠ [])) l := by
        simp [List.filter_cons, he]
      rw [h1, h2, ih]
    · have h1 : (if ep.1.isEmpty then lines else sectionAppend lines ep.1 ep.2) =
          lines ++ sectionLinesOf ep.1 ep.2 := by
        have : ep.1.isEmpty = false := by simpa using he
        simp [this, sectionAppend_eq]
      have h2 : List.filter (fun ep => decide (ep.1 ≠ [])) (ep :: l) =
          ep :: List.filter (fun ep => decide (ep.1 ≠ [])) l := by
        simp [List.filter_cons, he]
      rw [h1, h2, List.flatMap_cons, ih, List.append_assoc]

lemma generate_editorconfig_eq (agg : List (List Char × ExtCounters)) :
    generate_editorconfig agg =
      List.intercalate ['\n']
        (headerLines ++
          ((sortPairs agg).filter (fun ep => decide (ep.1 ≠ []))).flatMap
            (fun ep => sectionLinesOf ep.1 ep.2)) := by
  unfold generate_editorconfig
  rw [generate_fold]

lemma analyzeContent_size_space (raw : List Nat)
    (hmc : (counterOfList ((linesOf raw).filterMap voteOf)).mostCommon? = some IndentStyle.space) :
    (analyzeContent raw).indent_size =
      if (spaceWidths (linesOf raw)).isEmpty then none
      else some (gcdList (spaceWidths (linesOf raw))) := by
  rw [analyzeContent_indent_size, hmc]

lemma analyzeContent_size_tab (raw : List Nat)
    (hmc : (counterOfList ((linesOf raw).filterMap voteOf)).mostCommon? = some IndentStyle.tab) :
    (analyzeContent raw).indent_size = none := by
  rw [analyzeContent_indent_size, hmc]

lemma analyzeContent_size_none (raw : List Nat)
    (hmc : (counterOfList ((linesOf raw).filterMap voteOf)).mostCommon? = none) :
    (analyzeContent raw).indent_size = none := by
  rw [analyzeContent_indent_size, hmc]

lemma spaceVoteCount_pos_of_widths {lines : List (List Char)}
    (hw : spaceWidths lines ≠ []) : 0 < spaceVoteCount lines := by
  have hlen := spaceWidths_length lines
  rcases hsw : spaceWidths lines with _ | ⟨w, ws⟩
  · exact absurd hsw hw
  · rw [hsw] at hlen
    simp only [List.length_cons] at hlen
    omega

/-- Common part of the size analysis: a recorded size forces the space
style, a non-empty width list, and the gcd value. -/
lemma size_forces_space (raw : List Nat) (n : Nat)
    (h : (analyzeContent raw).indent_size = some n) :
    (analyzeContent raw).indent_style = some IndentStyle.space ∧
    spaceWidths (linesOf raw) ≠ [] ∧ n = gcdList (spaceWidths (linesOf raw)) := by
  rcases hmc : (counterOfList ((linesOf raw).filterMap voteOf)).mostCommon? with _ | sty
  · rw [analyzeContent_size_none raw hmc] at h
    cases h
  · cases sty
    · rw [analyzeContent_size_space raw hmc] at h
      by_cases hw : (spaceWidths (linesOf raw)).isEmpty
      · rw [if_pos hw] at h; cases h
      · rw [if_neg hw] at h
        cases h
        refine ⟨?_, ?_, rfl⟩
        · rw [analyzeContent_indent_style, hmc]
        · simpa [List.isEmpty_iff] using hw
    · rw [analyzeContent_size_tab raw hmc] at h
      cases h

/-- C1 (counterexample): the claim says a record with a non-null eol but a
null indent_style is kept and votes; but the filter of line 264 requires
both fields truthy, so the analysis of a file with line terminators and no
indented lines (eol = lf, indent_style = null) is excluded and its
extension gets no bucket at all. -/
theorem C1_counterexample :
    (analyzeContent helloBytes).eol = some Eol.lf ∧
    (analyzeContent helloBytes).indent_style = none ∧
    keepRecord (analyzeContent helloBytes) = false ∧
    collectProperties [(extX, Except.ok helloBytes)] = [] := by
  decide

/-- C1 (amended): a FileProperties record is excluded from aggregation
unless both its indent_style and its eol are non-null; in particular a
record with non-null eol but null indent_style is excluded, so neither its
eol nor its charset votes for its extension. -/
theorem C1_record_filter :
    (∀ p : FileProperties,
      keepRecord p = true ↔ (p.indent_style.isSome = true ∧ p.eol.isSome = true)) ∧
    collectProperties [(extX, Except.ok helloBytes)] = [] := by
  constructor
  · intro p
    simp [keepRecord]
  · decide

/-- C2 (code evaluated at the failing input): for byte content that
decodes but contains no CR and no LF — the empty file and a one-line file
without a terminator — the analyzer classifies eol as crlf, not lf: the
Counter literal of lines 68-72 always holds three keys, so it is truthy
even with all counts zero and `most_common` returns the first-inserted
key crlf; the `else 'lf'` fallback of line 75 is unreachable. -/
theorem C2_no_terminator_crlf :
    dominantEol [] = Eol.crlf ∧
    (analyzeContent []).eol = some Eol.crlf ∧
    (analyzeContent abcBytes).eol = some Eol.crlf := by
  decide

/-- C3: with at least one line terminator, the dominant eol is the member
of crlf/cr/lf with the highest count, ties falling to the earlier
candidate in the fixed order crlf, cr, lf; consequently only-LF content
yields lf, only-CR yields cr, only-CRLF yields crlf, and a mix with CRLF
strictly dominant yields crlf. -/
theorem C3_eol_classification :
    ∀ text : List Char,
      (1 ≤ crlfCount text + bareCrCount text + bareLfCount text →
        dominantEol text =
          if bareCrCount text ≤ crlfCount text ∧ bareLfCount text ≤ crlfCount text then Eol.crlf
          else if bareLfCount text ≤ bareCrCount text then Eol.cr
          else Eol.lf) ∧
      (crlfCount text = 0 → bareCrCount text = 0 → 1 ≤ bareLfCount text →
        dominantEol text = Eol.lf) ∧
      (crlfCount text = 0 → bareLfCount text = 0 → 1 ≤ bareCrCount text →
        dominantEol text = Eol.cr) ∧
      (bareCrCount text = 0 → bareLfCount text = 0 → 1 ≤ crlfCount text →
        dominantEol text = Eol.crlf) ∧
      (bareCrCount text < crlfCount text → bareLfCount text < crlfCount text →
        dominantEol text = Eol.crlf) := by
  intro text
  have hd := dominantEol_eq text
  refine ⟨fun _ => hd, ?_, ?_, ?_, ?_⟩
  · intro h1 h2 h3
    rw [hd]
    have hA : ¬ (bareCrCount text ≤ crlfCount text ∧ bareLfCount text ≤ crlfCount text) := by
      intro hx
      omega
    have hB : ¬ bareLfCount text ≤ bareCrCount text := by omega
    rw [if_neg hA, if_neg hB]
  · intro h1 h2 h3
    rw [hd]
    have hA : ¬ (bareCrCount text ≤ crlfCount text ∧ bareLfCount text ≤ crlfCount text) := by
      intro hx
      omega
    have hB : bareLfCount text ≤ bareCrCount text := by omega
    rw [if_neg hA, if_pos hB]
  · intro h1 h2 h3
    rw [hd, if_pos (by omega : bareCrCount text ≤ crlfCount text ∧ bareLfCount text ≤ crlfCount text)]
  · intro h1 h2
    rw [hd, if_pos ⟨le_of_lt h1, le_of_lt h2⟩]

/-- C3 witness: the theorem applied at mixed CRLF-dominant content and at
LF-only content. -/
theorem C3_witness :
    dominantEol textMixed = Eol.crlf ∧ dominantEol textLfOnly = Eol.lf :=
  ⟨(C3_eol_classification textMixed).2.2.2.2 (by decide) (by decide),
   (C3_eol_classification textLfOnly).2.1 (by decide) (by decide) (by decide)⟩

/-- C4: for each extension and each of the four fields independently, the
aggregator tallies the truthy observed values in scan order; the rendered
setting is the value with the highest tally, ties broken by the value
first encountered (stable insertion order), and when no record
contributed a value the defaults space / 4 / lf / utf-8 apply; three
records with eol lf, lf, crlf yield eol lf. -/
theorem C4_aggregation_mode :
    (∀ l : List FileProperties,
      (l.filterMap (fun p => p.indent_style) = [] →
        determine_setting (aggregate_properties l).indent_style IndentStyle.space =
          IndentStyle.space) ∧
      (l.filterMap sizeVote = [] →
        determine_setting (aggregate_properties l).indent_size 4 = 4) ∧
      (l.filterMap (fun p => p.eol) = [] →
        determine_setting (aggregate_properties l).eol Eol.lf = Eol.lf) ∧
      (l.filterMap (fun p => p.charset) = [] →
        determine_setting (aggregate_properties l).charset Charset.utf8 = Charset.utf8) ∧
      (l.filterMap (fun p => p.indent_style) ≠ [] →
        isModeChoice (l.filterMap (fun p => p.indent_style))
          (determine_setting (aggregate_properties l).indent_style IndentStyle.space)) ∧
      (l.filterMap sizeVote ≠ [] →
        isModeChoice (l.filterMap sizeVote)
          (determine_setting (aggregate_properties l).indent_size 4)) ∧
      (l.filterMap (fun p => p.eol) ≠ [] →
        isModeChoice (l.filterMap (fun p => p.eol))
          (determine_setting (aggregate_properties l).eol Eol.lf)) ∧
      (l.filterMap (fun p => p.charset) ≠ [] →
        isModeChoice (l.filterMap (fun p => p.charset))
          (determine_setting (aggregate_properties l).charset Charset.utf8))) ∧
    determine_setting (aggregate_properties [recLf, recLf, recCrlf]).eol Eol.lf = Eol.lf := by
  constructor
  · intro l
    refine ⟨?_, ?_, ?_, ?_, ?_, ?_, ?_, ?_⟩
    · intro h; rw [aggregate_indent_style, h]; rfl
    · intro h; rw [aggregate_indent_size, h]; rfl
    · intro h; rw [aggregate_eol, h]; rfl
    · intro h; rw [aggregate_charset, h]; rfl
    · intro h; rw [aggregate_indent_style]; exact determine_setting_spec _ _ h
    · intro h; rw [aggregate_indent_size]; exact determine_setting_spec _ _ h
    · intro h; rw [aggregate_eol]; exact determine_setting_spec _ _ h
    · intro h; rw [aggregate_charset]; exact determine_setting_spec _ _ h
  · decide

/-- C4 witness: the theorem applied to the lf, lf, crlf example and to the
empty record list for the indent_size default. -/
theorem C4_witness :
    isModeChoice ([recLf, recLf, recCrlf].filterMap (fun p => p.eol))
      (determine_setting (aggregate_properties [recLf, recLf, recCrlf]).eol Eol.lf) ∧
    determine_setting (aggregate_properties ([] : List FileProperties)).indent_size 4 = 4 :=
  ⟨(C4_aggregation_mode.1 [recLf, recLf, recCrlf]).2.2.2.2.2.2.1 (by decide),
   (C4_aggregation_mode.1 []).2.1 (by decide)⟩

/-- C5: per-file indentation: the style with strictly more line votes
wins (null when there are no votes), a space-style file with recorded
widths gets the gcd of all recorded widths as indent_size (characterised
as the greatest common divisor), uniformly N-space-indented content yields
indent_size N, and any mix of 2- and 4-space indents yields indent_size
2. -/
theorem C5_indentation :
    ∀ raw : List Nat,
      (tabVoteCount (linesOf raw) < spaceVoteCount (linesOf raw) →
        (analyzeContent raw).indent_style = some IndentStyle.space) ∧
      (spaceVoteCount (linesOf raw) < tabVoteCount (linesOf raw) →
        (analyzeContent raw).indent_style = some IndentStyle.tab) ∧
      (tabVoteCount (linesOf raw) = 0 → spaceVoteCount (linesOf raw) = 0 →
        (analyzeContent raw).indent_style = none ∧ (analyzeContent raw).indent_size = none) ∧
      ((analyzeContent raw).indent_style = some IndentStyle.space →
        spaceWidths (linesOf raw) ≠ [] →
        (analyzeContent raw).indent_size = some (gcdList (spaceWidths (linesOf raw))) ∧
        (∀ w ∈ spaceWidths (linesOf raw), gcdList (spaceWidths (linesOf raw)) ∣ w) ∧
        (∀ d : Nat, (∀ w ∈ spaceWidths (linesOf raw), d ∣ w) →
          d ∣ gcdList (spaceWidths (linesOf raw)))) ∧
      (∀ N : Nat, tabVoteCount (linesOf raw) = 0 → spaceWidths (linesOf raw) ≠ [] →
        (∀ w ∈ spaceWidths (linesOf raw), w = N) →
        (analyzeContent raw).indent_size = some N) ∧
      (tabVoteCount (linesOf raw) = 0 → 2 ∈ spaceWidths (linesOf raw) →
        4 ∈ spaceWidths (linesOf raw) →
        (∀ w ∈ spaceWidths (linesOf raw), w = 2 ∨ w = 4) →
        (analyzeContent raw).indent_size = some 2) := by
  intro raw
  have hD : (analyzeContent raw).indent_style = some IndentStyle.space →
      spaceWidths (linesOf raw) ≠ [] →
      (analyzeContent raw).indent_size = some (gcdList (spaceWidths (linesOf raw))) := by
    intro hsty hw
    rw [analyzeContent_indent_style] at hsty
    rw [analyzeContent_size_space raw hsty]
    have : (spaceWidths (linesOf raw)).isEmpty = false := by
      simpa [List.isEmpty_iff] using hw
    rw [this]
    simp
  refine ⟨indentStyle_space_major raw, indentStyle_tab_major raw, ?_,
    fun hsty hw => ⟨hD hsty hw, gcdList_dvd_mem _, fun d hdall => dvd_gcdList _ d hdall⟩,
    ?_, ?_⟩
  · intro ht hs
    have hnil := indentStyle_none raw ht hs
    constructor
    · rw [analyzeContent_indent_style, hnil]
      rfl
    · rw [analyzeContent_size_none raw (by rw [hnil]; rfl)]
  · intro N ht hw hall
    have hsp : 0 < spaceVoteCount (linesOf raw) := spaceVoteCount_pos_of_widths hw
    have hsty := indentStyle_space_major raw (by omega)
    have hsize := hD hsty hw
    obtain ⟨w0, hw0⟩ : ∃ w0, w0 ∈ spaceWidths (linesOf raw) :=
      List.exists_mem_of_ne_nil _ hw
    have hgN : gcdList (spaceWidths (linesOf raw)) = N := by
      apply Nat.dvd_antisymm
      · have hdvd := gcdList_dvd_mem (spaceWidths (linesOf raw)) w0 hw0
        rw [hall w0 hw0] at hdvd
        exact hdvd
      · exact dvd_gcdList _ N (fun w hwm => by rw [hall w hwm])
    rw [hsize, hgN]
  · intro ht h2 h4 hall
    have hw : spaceWidths (linesOf raw) ≠ [] := List.ne_nil_of_mem h2
    have hsp : 0 < spaceVoteCount (linesOf raw) := spaceVoteCount_pos_of_widths hw
    have hsty := indentStyle_space_major raw (by omega)
    have hsize := hD hsty hw
    have hg2 : gcdList (spaceWidths (linesOf raw)) = 2 := by
      apply Nat.dvd_antisymm
      · exact gcdList_dvd_mem _ 2 h2
      · refine dvd_gcdList _ 2 (fun w hwm => ?_)
        rcases hall w hwm with h | h
        · rw [h]
        · rw [h]
          exact ⟨2, rfl⟩
    rw [hsize, hg2]

/-- C5 witness: the theorem applied to content mixing 2-space and 4-space
indentation. -/
theorem C5_witness :
    (analyzeContent mixWidthBytes).indent_style = some IndentStyle.space ∧
    (analyzeContent mixWidthBytes).indent_size = some 2 :=
  ⟨(C5_indentation mixWidthBytes).1 (by decide),
   (C5_indentation mixWidthBytes).2.2.2.2.2 (by decide) (by decide) (by decide) (by decide)⟩

/-- C6: the rendered document is the fixed universal wildcard section
(root declaration and the [*] block with charset utf-8, end_of_line lf,
insert_final_newline, trim_trailing_whitespace) independent of the input,
followed by one section per non-empty extension in a lexicographically
sorted permutation of the aggregation buckets, each section being the
selector header, indent_style, indent_size (numeric for space, the token
tab for tab), end_of_line, charset and a blank separator line, all joined
with newlines. -/
theorem C6_document_layout :
    ∀ agg : List (List Char × ExtCounters),
      generate_editorconfig agg =
        List.intercalate ['\n']
          (headerLines ++
            ((sortPairs agg).filter (fun ep => decide (ep.1 ≠ []))).flatMap
              (fun ep => sectionLinesOf ep.1 ep.2)) ∧
      (sortPairs agg).Perm agg ∧ List.Pairwise pairLe (sortPairs agg) :=
  fun agg => ⟨generate_editorconfig_eq agg, sortPairs_perm agg, sortPairs_sorted agg⟩

/-- C7 (code evaluated at the failing input): the same two-file set
analyzed in the two possible iteration orders of the path set produces
different documents — the 1-1 eol tie between lf and crlf falls to
whichever file was processed first, and Python set iteration order over
path strings is not stable across runs (hash randomisation), so re-running
the generator on an unchanged file set need not reproduce the bytes. -/
theorem C7_order_dependent :
    filesAB.Perm filesBA ∧ runPipeline filesAB ≠ runPipeline filesBA := by
  constructor
  · unfold filesAB filesBA
    exact List.Perm.swap _ _ _
  · decide

/-- C8: the analyzer is total at its boundary: a failed read returns the
record exactly as initialised (all fields null), which the caller's filter
excludes without aborting the fold over the remaining files; a successful
read always produces a non-null charset (the Latin-1 fallback is total)
and a non-null eol. -/
theorem C8_analyzer_total :
    (∀ msg : String, analyze_file (Except.error msg) = ⟨none, none, none, none⟩) ∧
    (∀ (ext : List Char) (msg : String) (files : List (List Char × Except String (List Nat))),
      collectProperties ((ext, Except.error msg) :: files) = collectProperties files) ∧
    (∀ raw : List Nat,
      (analyze_file (Except.ok raw)).charset = some (detectCharset raw).2 ∧
      (analyze_file (Except.ok raw)).eol = some (dominantEol (detectCharset raw).1)) :=
  ⟨fun _ => rfl, fun _ _ _ => rfl,
   fun raw => ⟨analyzeContent_charset raw, analyzeContent_eol raw⟩⟩

/-- C9: every record the analyzer returns satisfies the invariant: a
non-null indent_size implies indent_style is space and the size is a
positive integer, and (for a successful read) at least one space-indented
line was observed. -/
theorem C9_size_invariant :
    (∀ (input : Except String (List Nat)) (n : Nat),
      (analyze_file input).indent_size = some n →
      (analyze_file input).indent_style = some IndentStyle.space ∧ 0 < n) ∧
    (∀ (raw : List Nat) (n : Nat),
      (analyzeContent raw).indent_size = some n →
      ∃ line ∈ linesOf raw, voteOf line = some IndentStyle.space) := by
  constructor
  · intro input n h
    cases input with
    | error msg => simp [analyze_file] at h
    | ok raw =>
      obtain ⟨hsty, hw, hn⟩ := size_forces_space raw n h
      refine ⟨hsty, ?_⟩
      rw [hn]
      exact gcdList_pos _ hw (spaceWidths_pos _)
  · intro raw n h
    obtain ⟨-, hw, -⟩ := size_forces_space raw n h
    obtain ⟨w, hmem⟩ := List.exists_mem_of_ne_nil _ hw
    obtain ⟨line, hline, hwo⟩ := List.mem_filterMap.1 hmem
    exact ⟨line, hline, (widthOf_space hwo).1⟩

/-- C9 witness: the theorem applied to a two-space-indented file. -/
theorem C9_witness :
    ((analyze_file (Except.ok twoSpaceBytes)).indent_style = some IndentStyle.space ∧ 0 < 2) ∧
    ∃ line ∈ linesOf twoSpaceBytes, voteOf line = some IndentStyle.space :=
  ⟨C9_size_invariant.1 (Except.ok twoSpaceBytes) 2 (by decide),
   C9_size_invariant.2 twoSpaceBytes 2 (by decide)⟩

/-- C10: when the tab and space votes of one file tie at a non-zero
count, the analyzed indent_style is the style of the first indented
non-blank line of the file (the first-inserted counter key wins the
most_common tie). -/
theorem C10_tie_break :
    ∀ raw : List Nat,
      tabVoteCount (linesOf raw) = spaceVoteCount (linesOf raw) →
      0 < tabVoteCount (linesOf raw) →
      (analyzeContent raw).indent_style = firstVote (linesOf raw) := by
  intro raw heq hpos
  set votes := (linesOf raw).filterMap voteOf with hvotes
  have hts : tally IndentStyle.space votes = spaceVoteCount (linesOf raw) := tally_space_votes _
  have htt : tally IndentStyle.tab votes = tabVoteCount (linesOf raw) := tally_tab_votes _
  have hmem_t : IndentStyle.tab ∈ votes := mem_of_tally_pos (by omega)
  have hmem_s : IndentStyle.space ∈ votes := mem_of_tally_pos (by omega)
  have hne : votes ≠ [] := List.ne_nil_of_mem hmem_t
  obtain ⟨r, hmc, hrmem, hmax, pre, suf, hsplit, hpre⟩ := mostCommon_spec votes hne
  have hvals : tally IndentStyle.space votes = tally IndentStyle.tab votes := by
    rw [hts, htt, heq]
  have htallyr : ∀ x : IndentStyle, tally x votes = tally r votes := by
    intro x
    cases x <;> cases r
    · rfl
    · exact hvals
    · exact hvals.symm
    · rfl
  have hprenil : pre = [] := by
    rcases hprelist : pre with _ | ⟨k, pre'⟩
    · rfl
    · exfalso
      have hk : k ∈ pre := by
        rw [hprelist]
        exact List.mem_cons_self k pre'
      have := hpre k hk
      rw [htallyr k] at this
      omega
  rw [hprenil] at hsplit
  obtain ⟨v0, vs, hv0⟩ : ∃ v0 vs, votes = v0 :: vs := by
    rcases hvv : votes with _ | ⟨v0, vs⟩
    · exact absurd hvv hne
    · exact ⟨v0, vs, rfl⟩
  have hr0 : r = v0 := by
    rw [hv0] at hsplit
    have hh := congrArg List.head? hsplit
    simp only [firstOccurrences, List.head?_cons, List.nil_append] at hh
    exact (Option.some.inj hh).symm
  rw [analyzeContent_indent_style, ← hvotes, hmc, hr0]
  unfold firstVote
  rw [← head?_filterMap voteOf (linesOf raw), ← hvotes, hv0]
  rfl

/-- C10 witness: the theorem applied to a file with one tab-indented line
followed by one space-indented line. -/
theorem C10_witness :
    (analyzeContent tieBytes).indent_style = firstVote (linesOf tieBytes) ∧
    firstVote (linesOf tieBytes) = some IndentStyle.tab :=
  ⟨C10_tie_break tieBytes (by decide) (by decide), by decide⟩
